import Mathlib

/-
Verification of the nnlib neural-network core (Go sources: activations.go,
loss.go, serialize.go, the Layer file and the NeuralNetwork file).

Embedding conventions:
* float64 values are modelled as exact rationals (ℚ); every arithmetic
  expression of the Go source is translated operation for operation, so the
  sequence of operations is preserved even where exact arithmetic would allow
  simplification.
* Calls into the Go math library (math.Exp, math.Tanh, math.Log) are modelled
  as opaque function parameters fexp, ftanh, flog of type ℚ → ℚ.
* Fallible code paths (Go panics: slice index out of range, the explicit panic
  in activationFromName, the unconditional input[0] read in softmax) are
  modelled with Option: none is a panic.
* The write-only field Softmax.lastOutput (assigned by ActivateVector, never
  read anywhere in the repository) is not carried in the state.
* The JSON / file layer of serialize.go is elided: Save produces the
  serialModel record that Go marshals, Load consumes one (Go JSON round-trips
  float64 and string fields exactly).
* A separate development (namespace NNF) repeats the training entry point over
  a scalar type with the IEEE special values Inf and NaN, for the one claim
  whose content is the production of NaN by a division 0/0.
-/

namespace NN

abbrev Vec := List ℚ

abbrev Mat := List (List ℚ)

/-- The closed set of activation implementations of activations.go. LeakyReLU
and ELU carry their Alpha field. -/
inductive ActivationFunc where
  | sigmoid
  | relu
  | leakyReLU (alpha : ℚ)
  | tanh
  | linear
  | elu (alpha : ℚ)
  | swish
  | softmax
deriving DecidableEq, Repr

/-- Scalar Activate methods of activations.go. The scalar method of Softmax is
the identity. -/
def ActivationFunc.Activate (fexp ftanh : ℚ → ℚ) : ActivationFunc → ℚ → ℚ
  | .sigmoid, x => 1 / (1 + fexp (-x))
  | .relu, x => if x > 0 then x else 0
  | .leakyReLU a, x => if x > 0 then x else a * x
  | .tanh, x => ftanh x
  | .linear, x => x
  | .elu a, x => if x ≥ 0 then x else a * (fexp x - 1)
  | .swish, x => x / (1 + fexp (-x))
  | .softmax, x => x

/-- Scalar Derivative methods of activations.go. The Softmax placeholder
returns 1. -/
def ActivationFunc.Derivative (fexp ftanh : ℚ → ℚ) : ActivationFunc → ℚ → ℚ
  | .sigmoid, x => (1 / (1 + fexp (-x))) * (1 - 1 / (1 + fexp (-x)))
  | .relu, x => if x > 0 then 1 else 0
  | .leakyReLU a, x => if x > 0 then 1 else a
  | .tanh, x => 1 - ftanh x * ftanh x
  | .linear, _ => 1
  | .elu a, x => if x ≥ 0 then 1 else a * fexp x
  | .swish, x => 1 / (1 + fexp (-x)) + x * (1 / (1 + fexp (-x))) * (1 - 1 / (1 + fexp (-x)))
  | .softmax, _ => 1

/-- Softmax.ActivateVector of activations.go. The unconditional read of
input[0] panics (none) on an empty slice; otherwise the max is folded over the
whole slice, exponentials of shifted entries are summed in order, and every
entry is divided by the sum. -/
def softmaxActivateVector (fexp : ℚ → ℚ) : Vec → Option Vec
  | [] => none
  | v0 :: rest =>
    let input := v0 :: rest
    let maxVal := input.foldl (fun m v => if v > m then v else m) v0
    let output := input.map (fun v => fexp (v - maxVal))
    let expSum := output.foldl (fun s e => s + e) 0
    some (output.map (fun e => e / expSum))

/-- The clamp constant of CrossEntropyLoss (the Go literal 1e-15, taken at its
decimal value). -/
def epsilonCE : ℚ := 1 / 10 ^ 15

/-- The clamp applied to each predicted probability in CrossEntropyLoss:
math.Min(math.Max(p, epsilon), 1-epsilon). -/
def clampProb (p : ℚ) : ℚ := min (max p epsilonCE) (1 - epsilonCE)

/-- The loop of CrossEntropyLoss (loss.go): iterates over predicted, reads
target at the same index (panic when target is exhausted first), subtracts
t * log(clamped p) from the loss accumulator and emits gradient entry
clamped p - t. -/
def celGo (flog : ℚ → ℚ) : Vec → Vec → ℚ → Option (ℚ × Vec)
  | [], _, loss => some (loss, [])
  | _ :: _, [], _ => none
  | p :: ps, t :: ts, loss =>
    let c := clampProb p
    do
      let r ← celGo flog ps ts (loss - t * flog c)
      pure (r.1, (c - t) :: r.2)

/-- CrossEntropyLoss of loss.go. -/
def CrossEntropyLoss (flog : ℚ → ℚ) (predicted target : Vec) : Option (ℚ × Vec) :=
  celGo flog predicted target 0

/-- The loop of MSELoss (loss.go): iterates over predicted, reads target at
the same index (panic when target is exhausted first), accumulates squared
differences and emits gradient entry 2 * diff. -/
def mseGo : Vec → Vec → ℚ → Option (ℚ × Vec)
  | [], _, loss => some (loss, [])
  | _ :: _, [], _ => none
  | p :: ps, t :: ts, loss =>
    let d := p - t
    do
      let r ← mseGo ps ts (loss + d * d)
      pure (r.1, (2 * d) :: r.2)

/-- MSELoss of loss.go: the accumulated squared error divided by the length of
predicted. (With an empty predicted the Go division 0.0/0 yields NaN; exact
arithmetic yields 0. No claim touches that case.) -/
def MSELoss (predicted target : Vec) : Option (ℚ × Vec) := do
  let r ← mseGo predicted target 0
  pure (r.1 / (predicted.length : ℚ), r.2)

/-- A fully connected layer (Layer struct of the Go source). The fields
inputs, outputs and deltas are the ephemeral per-call scratch state written by
Forward and Backward. -/
structure Layer where
  Weights : Mat
  Biases : Vec
  Activation : ActivationFunc
  inputs : Vec := []
  outputs : Vec := []
  deltas : Vec := []
deriving DecidableEq, Repr

/-- The inner sum of Layer.Forward: starting from the bias, for j over the
input, add Weights[i][j] * input[j]. The weight-row index panics (none) when
the input is longer than the row. -/
def dotRow : Vec → Vec → ℚ → Option ℚ
  | [], _, acc => some acc
  | _ :: _, [], _ => none
  | x :: xs, w :: ws, acc => dotRow xs ws (acc + w * x)

/-- The outer loop of Layer.Forward: for i over the weight rows, read the
bias (panic when Biases is shorter than Weights), take the weighted sum and
apply the scalar activation. -/
def forwardRows (fexp ftanh : ℚ → ℚ) (act : ActivationFunc) (input : Vec) :
    Mat → Vec → Option Vec
  | [], _ => some []
  | _ :: _, [] => none
  | row :: rows, b :: bs => do
    let s ← dotRow input row b
    let rest ← forwardRows fexp ftanh act input rows bs
    pure (act.Activate fexp ftanh s :: rest)

/-- Layer.Forward: stores the input, computes the pre-activations with the
scalar activation applied, then reroutes the whole vector through
softmaxActivateVector when the activation is the Softmax variant (the Go type
switch), and stores the output. -/
def Layer.Forward (fexp ftanh : ℚ → ℚ) (l : Layer) (input : Vec) :
    Option (Layer × Vec) := do
  let z ← forwardRows fexp ftanh l.Activation input l.Weights l.Biases
  let output ← if l.Activation = .softmax then softmaxActivateVector fexp z else pure z
  pure ({ l with inputs := input, outputs := output }, output)

/-- The delta loop of Layer.Backward: for i over the stored outputs, read
errorGrad[i] (panic when errorGrad is shorter); for the Softmax variant the
delta is the error entry itself, otherwise it is multiplied by the derivative
evaluated at the stored post-activation output. -/
def mkDeltas (fexp ftanh : ℚ → ℚ) (act : ActivationFunc) : Vec → Vec → Option Vec
  | [], _ => some []
  | _ :: _, [] => none
  | o :: os, e :: es => do
    let rest ← mkDeltas fexp ftanh act os es
    pure ((if act = .softmax then e else e * act.Derivative fexp ftanh o) :: rest)

/-- One entry of the prevError computation: starting from 0, for i over the
deltas add deltas[i] * Weights[i][j] (panic when Weights has fewer rows than
deltas or row i has no entry j). -/
def colDot : Vec → Mat → ℕ → ℚ → Option ℚ
  | [], _, _, acc => some acc
  | _ :: _, [], _, _ => none
  | d :: ds, row :: rows, j, acc => do
    let w ← row.get? j
    colDot ds rows j (acc + d * w)

/-- The prevError loop: for j over the stored inputs (only the index is used),
compute the column sum at j. -/
def prevErrorGo (deltas : Vec) (weights : Mat) : Vec → ℕ → Option Vec
  | [], _ => some []
  | _ :: rest, j => do
    let s ← colDot deltas weights j 0
    let others ← prevErrorGo deltas weights rest (j + 1)
    pure (s :: others)

/-- prevError of Layer.Backward, length = length of the stored inputs. -/
def prevErrorCalc (deltas : Vec) (weights : Mat) (inputs : Vec) : Option Vec :=
  prevErrorGo deltas weights inputs 0

/-- The weight-update inner loop of Layer.Backward: for j over row i,
subtract learningRate * deltas[i] * inputs[j] (panic when the row is longer
than the stored inputs). -/
def updateRow (lr di : ℚ) : Vec → Vec → Option Vec
  | [], _ => some []
  | _ :: _, [] => none
  | w :: ws, x :: xs => do
    let rest ← updateRow lr di ws xs
    pure ((w - lr * di * x) :: rest)

/-- The parameter-update loop of Layer.Backward: for i over the weight rows,
update row i and subtract learningRate * deltas[i] from bias i (panic when
Biases or deltas run out before the rows do; biases beyond the rows are kept
unchanged). -/
def updateWB (lr : ℚ) (inputs : Vec) : Mat → Vec → Vec → Option (Mat × Vec)
  | [], bs, _ => some ([], bs)
  | _ :: _, [], _ => none
  | _ :: _, _ :: _, [] => none
  | row :: rows, b :: bs, d :: ds => do
    let row2 ← updateRow lr d row inputs
    let r ← updateWB lr inputs rows bs ds
    pure (row2 :: r.1, (b - lr * d) :: r.2)

/-- Layer.Backward: computes and stores the deltas, computes prevError from
the pre-update weights, and mutates Weights and Biases only when
learningRate > 0. -/
def Layer.Backward (fexp ftanh : ℚ → ℚ) (l : Layer) (errorGrad : Vec)
    (learningRate : ℚ) : Option (Layer × Vec) := do
  let ds ← mkDeltas fexp ftanh l.Activation l.outputs errorGrad
  let prevError ← prevErrorCalc ds l.Weights l.inputs
  if learningRate > 0 then
    let wb ← updateWB learningRate l.inputs l.Weights l.Biases ds
    pure ({ l with deltas := ds, Weights := wb.1, Biases := wb.2 }, prevError)
  else
    pure ({ l with deltas := ds }, prevError)

/-- The network: an ordered list of layers. -/
structure NeuralNetwork where
  Layers : List Layer
deriving DecidableEq, Repr

/-- The loop of NeuralNetwork.Forward, threading the vector through every
layer in order and collecting the updated layer states. -/
def forwardLayers (fexp ftanh : ℚ → ℚ) : List Layer → Vec → Option (List Layer × Vec)
  | [], input => some ([], input)
  | l :: ls, input => do
    let r1 ← l.Forward fexp ftanh input
    let r2 ← forwardLayers fexp ftanh ls r1.2
    pure (r1.1 :: r2.1, r2.2)

/-- NeuralNetwork.Forward. -/
def NeuralNetwork.Forward (fexp ftanh : ℚ → ℚ) (nn : NeuralNetwork) (input : Vec) :
    Option (NeuralNetwork × Vec) := do
  let r ← forwardLayers fexp ftanh nn.Layers input
  pure (⟨r.1⟩, r.2)

/-- The backward loop of NeuralNetwork.Train: layers are visited in reverse
order (the recursion descends to the tail first), each Backward is called with
the full learningRate, and the returned prevError becomes the errorGrad of the
next layer down. -/
def backLayers (fexp ftanh : ℚ → ℚ) (lr : ℚ) : List Layer → Vec → Option (List Layer × Vec)
  | [], eg => some ([], eg)
  | l :: ls, eg => do
    let r ← backLayers fexp ftanh lr ls eg
    let r2 ← l.Backward fexp ftanh r.2 lr
    pure (r2.1 :: r.1, r2.2)

/-- NeuralNetwork.Train: one forward pass, the CrossEntropyLoss gradient, and
an immediate-update backward pass. -/
def NeuralNetwork.Train (fexp ftanh flog : ℚ → ℚ) (nn : NeuralNetwork)
    (input target : Vec) (learningRate : ℚ) : Option NeuralNetwork := do
  let rf ← nn.Forward fexp ftanh input
  let rl ← CrossEntropyLoss flog rf.2 target
  let rb ← backLayers fexp ftanh learningRate rf.1.Layers rl.2
  pure ⟨rb.1⟩

/-- The zero gradient accumulators of TrainBatch, one (weight-shaped matrix,
bias-shaped vector) pair per layer. -/
def zeroAccs (layers : List Layer) : List (Mat × Vec) :=
  layers.map (fun l =>
    (l.Weights.map (fun row => row.map (fun _ => (0 : ℚ))),
     l.Biases.map (fun _ => (0 : ℚ))))

/-- Accumulation into one weight-gradient row: for j over the stored inputs,
add deltas-entry * inputs[j] into the accumulator row (panic when the
accumulator row is shorter than the inputs; longer rows keep their tail). -/
def accRow (di : ℚ) : Vec → Vec → Option Vec
  | [], rest => some rest
  | _ :: _, [] => none
  | x :: xs, g :: gs => do
    let rest ← accRow di xs gs
    pure ((g + di * x) :: rest)

/-- Accumulation into the weight-gradient matrix of one layer: for k over the
deltas, accumulate into accumulator row k. -/
def accMat (inputs : Vec) : Vec → Mat → Option Mat
  | [], rest => some rest
  | _ :: _, [] => none
  | d :: ds, row :: rows => do
    let row2 ← accRow d inputs row
    let rows2 ← accMat inputs ds rows
    pure (row2 :: rows2)

/-- Accumulation into the bias-gradient vector of one layer: for k over the
deltas, add deltas[k]. -/
def accBias : Vec → Vec → Option Vec
  | [], rest => some rest
  | _ :: _, [] => none
  | d :: ds, b :: bs => do
    let rest ← accBias ds bs
    pure ((b + d) :: rest)

/-- The inner backward loop of TrainBatch for one sample: layers in reverse
order; Backward is called with learningRate 0 (its return value is discarded),
the errorGrad for the next layer down is recomputed from the stored deltas and
the unchanged weights, and the per-layer accumulators receive the outer
products and the deltas. In the Go source the errorGrad recomputation and the
weight-gradient accumulation share one j,k loop nest; the writes touch
disjoint cells, so they are rendered as consecutive passes. -/
def batchBack (fexp ftanh : ℚ → ℚ) :
    List Layer → List (Mat × Vec) → Vec →
    Option (List Layer × List (Mat × Vec) × Vec)
  | [], _, eg => some ([], [], eg)
  | _ :: _, [], _ => none
  | l :: ls, acc :: accs, eg => do
    let r ← batchBack fexp ftanh ls accs eg
    let rb ← l.Backward fexp ftanh r.2.2 0
    let eg2 ← prevErrorCalc rb.1.deltas rb.1.Weights rb.1.inputs
    let g2 ← accMat rb.1.inputs rb.1.deltas acc.1
    let bg2 ← accBias rb.1.deltas acc.2
    pure (rb.1 :: r.1, (g2, bg2) :: r.2.1, eg2)

/-- The per-sample loop of TrainBatch: for idx over the inputs, read
targets[idx] (panic when targets is shorter), forward, loss gradient, and the
accumulating backward pass. -/
def sampleLoop (fexp ftanh flog : ℚ → ℚ) :
    List Vec → List Vec → List Layer → List (Mat × Vec) →
    Option (List Layer × List (Mat × Vec))
  | [], _, layers, accs => some (layers, accs)
  | _ :: _, [], _, _ => none
  | x :: xs, y :: ys, layers, accs => do
    let rf ← forwardLayers fexp ftanh layers x
    let rl ← CrossEntropyLoss flog rf.2 y
    let rb ← batchBack fexp ftanh rf.1 accs rl.2
    sampleLoop fexp ftanh flog xs ys rb.1 rb.2.1

/-- The final update inner loop of TrainBatch: for k over row j, subtract
learningRate * accumulated[k] / batchSize. -/
def applyRow (lr bs : ℚ) : Vec → Vec → Option Vec
  | [], _ => some []
  | _ :: _, [] => none
  | w :: ws, g :: gs => do
    let rest ← applyRow lr bs ws gs
    pure ((w - lr * g / bs) :: rest)

/-- The final update of one layer: for j over the weight rows, update row j
and subtract learningRate * biasAccumulated[j] / batchSize from bias j. -/
def applyWB (lr bs : ℚ) : Mat → Vec → Mat → Vec → Option (Mat × Vec)
  | [], bleft, _, _ => some ([], bleft)
  | _ :: _, [], _, _ => none
  | _ :: _, _ :: _, [], _ => none
  | _ :: _, _ :: _, _ :: _, [] => none
  | row :: rows, b :: bbs, g :: gs, bg :: bgs => do
    let row2 ← applyRow lr bs row g
    let r ← applyWB lr bs rows bbs gs bgs
    pure (row2 :: r.1, (b - lr * bg / bs) :: r.2)

/-- The final update over all layers of TrainBatch. -/
def applyLayers (lr bs : ℚ) : List Layer → List (Mat × Vec) → Option (List Layer)
  | [], _ => some []
  | _ :: _, [] => none
  | l :: ls, acc :: accs => do
    let wb ← applyWB lr bs l.Weights l.Biases acc.1 acc.2
    let rest ← applyLayers lr bs ls accs
    pure ({ l with Weights := wb.1, Biases := wb.2 } :: rest)

/-- NeuralNetwork.TrainBatch: zero accumulators shaped from the current
parameters, the per-sample accumulation loop with learningRate 0, then one
averaged update with the given learningRate, dividing by float64(batchSize). -/
def NeuralNetwork.TrainBatch (fexp ftanh flog : ℚ → ℚ) (nn : NeuralNetwork)
    (inputs targets : List Vec) (learningRate : ℚ) : Option NeuralNetwork := do
  let batchSize := inputs.length
  let r ← sampleLoop fexp ftanh flog inputs targets nn.Layers (zeroAccs nn.Layers)
  let layers2 ← applyLayers learningRate (batchSize : ℚ) r.1 r.2
  pure ⟨layers2⟩

/-- One layer record of the persisted model (serialize.go). -/
structure serialLayer where
  Weights : Mat
  Biases : Vec
  Activation : String
deriving DecidableEq, Repr

/-- The persisted model (serialize.go). -/
structure serialModel where
  Layers : List serialLayer
deriving DecidableEq, Repr

/-- activationName of serialize.go: the Go type switch over the three
serializable activation implementations, everything else tagged unknown. -/
def activationName : ActivationFunc → String
  | .sigmoid => "sigmoid"
  | .relu => "relu"
  | .softmax => "softmax"
  | _ => "unknown"

/-- strings.ToLower, modelled character by character (Go lowercases each rune;
for the ASCII tags at hand this is the per-character lowercase map). -/
def toLowerStr (s : String) : String := ⟨s.data.map Char.toLower⟩

/-- activationFromName of serialize.go: a switch over strings.ToLower of the
tag; an unrecognized tag panics (none). -/
def activationFromName (name : String) : Option ActivationFunc :=
  let n := toLowerStr name
  if n = "sigmoid" then some ActivationFunc.sigmoid
  else if n = "relu" then some ActivationFunc.relu
  else if n = "softmax" then some ActivationFunc.softmax
  else none

/-- NeuralNetwork.Save: one serial record per layer, weights and biases
verbatim, activation rendered through activationName. -/
def NeuralNetwork.Save (nn : NeuralNetwork) : serialModel :=
  ⟨nn.Layers.map (fun l => ⟨l.Weights, l.Biases, activationName l.Activation⟩)⟩

/-- Reconstruction of one layer on load: the ephemeral fields start empty. -/
def loadLayer (sl : serialLayer) : Option Layer := do
  let act ← activationFromName sl.Activation
  pure { Weights := sl.Weights, Biases := sl.Biases, Activation := act }

/-- The layer loop of Load: layers are rebuilt in order; the first
unrecognized activation tag panics. -/
def loadLayers : List serialLayer → Option (List Layer)
  | [] => some []
  | sl :: sls => do
    let l ← loadLayer sl
    let rest ← loadLayers sls
    pure (l :: rest)

/-- Load of serialize.go (the JSON and file layers elided). -/
def Load (s : serialModel) : Option NeuralNetwork := do
  let ls ← loadLayers s.Layers
  pure ⟨ls⟩

/-- The three activation values the Go type switch in activationName
recognizes. -/
def serializable (act : ActivationFunc) : Prop :=
  act = ActivationFunc.sigmoid ∨ act = ActivationFunc.relu ∨ act = ActivationFunc.softmax

instance (act : ActivationFunc) : Decidable (serializable act) := by
  unfold serializable; infer_instance

/-- Shape of one layer as produced by NewLayer inputSize outputSize: the
weight matrix has outputSize rows of length inputSize each, the bias vector
has outputSize entries. -/
def Layer.Shaped (l : Layer) (nIn nOut : ℕ) : Prop :=
  l.Weights.length = nOut ∧ l.Biases.length = nOut ∧
    ∀ row ∈ l.Weights, row.length = nIn

/-- Shape of a layer stack as produced by NewNeuralNetwork from a size list:
consecutive layers chain, the first consumes nIn, the last produces nOut. -/
def LayersShaped : List Layer → ℕ → ℕ → Prop
  | [], nIn, nOut => nIn = nOut
  | l :: ls, nIn, nOut => l.Shaped nIn l.Weights.length ∧ LayersShaped ls l.Weights.length nOut

/-- The state of a layer stack right after a successful Forward pass: shapes
as in LayersShaped, and the ephemeral inputs and outputs have the matching
lengths. -/
def Ready : List Layer → ℕ → ℕ → Prop
  | [], nIn, nOut => nIn = nOut
  | l :: ls, nIn, nOut =>
      l.Biases.length = l.Weights.length ∧
      (∀ row ∈ l.Weights, row.length = nIn) ∧
      l.inputs.length = nIn ∧
      l.outputs.length = l.Weights.length ∧
      Ready ls l.Weights.length nOut

/-- Concrete one-layer network used for the C3 counterexample: two inputs, one
linear output unit, weights 1 and 1, bias 0. -/
def c3net : NeuralNetwork :=
  ⟨[{ Weights := [[1, 1]], Biases := [0], Activation := ActivationFunc.linear }]⟩

/-- Concrete persisted model with an uppercase activation tag, used for the C5
counterexample. -/
def c5model : serialModel := ⟨[⟨[[1]], [0], "SIGMOID"⟩]⟩

/-- Concrete persisted model with the tag tanh, used for the C5 witness. -/
def c5badmodel : serialModel := ⟨[⟨[[1]], [0], "tanh"⟩]⟩

/-- Concrete one-layer sigmoid network used for the C4 witness. -/
def c4net : NeuralNetwork :=
  ⟨[{ Weights := [[1]], Biases := [0], Activation := ActivationFunc.sigmoid }]⟩

/-- Concrete one-layer Tanh network used for the C9 witness (Tanh is one of
the activations the save path cannot name). -/
def c9net : NeuralNetwork :=
  ⟨[{ Weights := [[1]], Biases := [0], Activation := ActivationFunc.tanh }]⟩

/-- Concrete layer in a post-Forward state (stored input and output present),
used for the C6 witness. -/
def c6layer : Layer :=
  { Weights := [[1]], Biases := [0], Activation := ActivationFunc.linear,
    inputs := [2], outputs := [3], deltas := [] }

/-- Concrete one-layer network used for the C1 witness. -/
def c1net : NeuralNetwork :=
  ⟨[{ Weights := [[1]], Biases := [0], Activation := ActivationFunc.linear }]⟩

end NN

namespace NNF

/-- One IEEE float64 value, modelled exactly: a finite rational (rounding and
overflow are not modelled; every program path proved below computes exactly),
a signed infinity, or NaN. ℚ has a single zero, so the sign of zero is not
carried; the divisions reached below have a +0 divisor. This second copy of
the training entry points exists because the claim about an empty batch is
about the NaN produced by the float division 0/0, which an exact-field
embedding cannot express. -/
inductive F where
  | fin (q : ℚ)
  | inf (pos : Bool)
  | nan
deriving DecidableEq, Repr

/-- IEEE negation. -/
def Fneg : F → F
  | .fin q => .fin (-q)
  | .inf p => .inf (!p)
  | .nan => .nan

/-- IEEE addition: NaN propagates, opposite infinities give NaN. -/
def Fadd : F → F → F
  | .nan, _ => .nan
  | _, .nan => .nan
  | .fin a, .fin b => .fin (a + b)
  | .fin _, .inf p => .inf p
  | .inf p, .fin _ => .inf p
  | .inf p, .inf q => if p = q then .inf p else .nan

/-- IEEE subtraction. -/
def Fsub (a b : F) : F := Fadd a (Fneg b)

/-- IEEE multiplication: NaN propagates, 0 times infinity is NaN. -/
def Fmul : F → F → F
  | .nan, _ => .nan
  | _, .nan => .nan
  | .fin a, .fin b => .fin (a * b)
  | .fin a, .inf p => if a = 0 then .nan else if 0 < a then .inf p else .inf (!p)
  | .inf p, .fin b => if b = 0 then .nan else if 0 < b then .inf p else .inf (!p)
  | .inf p, .inf q => .inf (p = q)

/-- IEEE division with a +0 divisor convention: NaN propagates, 0/0 is NaN, a
nonzero finite value divided by 0 is a signed infinity, infinity over
infinity is NaN. -/
def Fdiv : F → F → F
  | .nan, _ => .nan
  | _, .nan => .nan
  | .fin a, .fin b =>
    if b = 0 then (if a = 0 then .nan else if 0 < a then .inf true else .inf false)
    else .fin (a / b)
  | .fin _, .inf _ => .fin 0
  | .inf p, .fin b => if 0 ≤ b then .inf p else .inf (!p)
  | .inf _, .inf _ => .nan

/-- IEEE strict less-than: NaN is incomparable. -/
def Flt : F → F → Bool
  | .nan, _ => false
  | _, .nan => false
  | .fin a, .fin b => decide (a < b)
  | .fin _, .inf p => p
  | .inf p, .fin _ => !p
  | .inf p, .inf q => !p && q

/-- IEEE less-or-equal: NaN is incomparable. -/
def Fle : F → F → Bool
  | .nan, _ => false
  | _, .nan => false
  | .fin a, .fin b => decide (a ≤ b)
  | .fin _, .inf p => p
  | .inf p, .fin _ => !p
  | .inf p, .inf q => p == q || (!p && q)

/-- math.Max: NaN if either argument is NaN, else the larger. -/
def Fmax : F → F → F
  | .nan, _ => .nan
  | _, .nan => .nan
  | a, b => if Flt a b then b else a

/-- math.Min: NaN if either argument is NaN, else the smaller. -/
def Fmin : F → F → F
  | .nan, _ => .nan
  | _, .nan => .nan
  | a, b => if Flt b a then b else a

abbrev VecF := List F

abbrev MatF := List (List F)

/-- The activation variants, as in the exact-rational development. -/
inductive ActivationFunc where
  | sigmoid
  | relu
  | leakyReLU (alpha : F)
  | tanh
  | linear
  | elu (alpha : F)
  | swish
  | softmax
deriving DecidableEq, Repr

/-- Scalar Activate methods over F. -/
def ActivationFunc.Activate (fexp ftanh : F → F) : ActivationFunc → F → F
  | .sigmoid, x => Fdiv (F.fin 1) (Fadd (F.fin 1) (fexp (Fneg x)))
  | .relu, x => if Flt (F.fin 0) x then x else F.fin 0
  | .leakyReLU a, x => if Flt (F.fin 0) x then x else Fmul a x
  | .tanh, x => ftanh x
  | .linear, x => x
  | .elu a, x => if Fle (F.fin 0) x then x else Fmul a (Fsub (fexp x) (F.fin 1))
  | .swish, x => Fdiv x (Fadd (F.fin 1) (fexp (Fneg x)))
  | .softmax, x => x

/-- Scalar Derivative methods over F. -/
def ActivationFunc.Derivative (fexp ftanh : F → F) : ActivationFunc → F → F
  | .sigmoid, x =>
    Fmul (Fdiv (F.fin 1) (Fadd (F.fin 1) (fexp (Fneg x))))
      (Fsub (F.fin 1) (Fdiv (F.fin 1) (Fadd (F.fin 1) (fexp (Fneg x)))))
  | .relu, x => if Flt (F.fin 0) x then F.fin 1 else F.fin 0
  | .leakyReLU a, x => if Flt (F.fin 0) x then F.fin 1 else a
  | .tanh, x => Fsub (F.fin 1) (Fmul (ftanh x) (ftanh x))
  | .linear, _ => F.fin 1
  | .elu a, x => if Fle (F.fin 0) x then F.fin 1 else Fmul a (fexp x)
  | .swish, x =>
    Fadd (Fdiv (F.fin 1) (Fadd (F.fin 1) (fexp (Fneg x))))
      (Fmul (Fmul x (Fdiv (F.fin 1) (Fadd (F.fin 1) (fexp (Fneg x)))))
        (Fsub (F.fin 1) (Fdiv (F.fin 1) (Fadd (F.fin 1) (fexp (Fneg x))))))
  | .softmax, _ => F.fin 1

/-- Softmax.ActivateVector over F. -/
def softmaxActivateVector (fexp : F → F) : VecF → Option VecF
  | [] => none
  | v0 :: rest =>
    let input := v0 :: rest
    let maxVal := input.foldl (fun m v => if Flt m v then v else m) v0
    let output := input.map (fun v => fexp (Fsub v maxVal))
    let expSum := output.foldl (fun s e => Fadd s e) (F.fin 0)
    some (output.map (fun e => Fdiv e expSum))

/-- The clamp constant of CrossEntropyLoss over F. -/
def epsilonCE : F := F.fin (1 / 10 ^ 15)

/-- The clamp of CrossEntropyLoss over F. -/
def clampProb (p : F) : F := Fmin (Fmax p epsilonCE) (Fsub (F.fin 1) epsilonCE)

/-- The CrossEntropyLoss loop over F. -/
def celGoF (flog : F → F) : VecF → VecF → F → Option (F × VecF)
  | [], _, loss => some (loss, [])
  | _ :: _, [], _ => none
  | p :: ps, t :: ts, loss =>
    let c := clampProb p
    do
      let r ← celGoF flog ps ts (Fsub loss (Fmul t (flog c)))
      pure (r.1, (Fsub c t) :: r.2)

/-- CrossEntropyLoss over F. -/
def CrossEntropyLoss (flog : F → F) (predicted target : VecF) : Option (F × VecF) :=
  celGoF flog predicted target (F.fin 0)

/-- The Layer struct over F. -/
structure Layer where
  Weights : MatF
  Biases : VecF
  Activation : ActivationFunc
  inputs : VecF := []
  outputs : VecF := []
  deltas : VecF := []
deriving DecidableEq, Repr

/-- The inner sum of Layer.Forward over F. -/
def dotRow : VecF → VecF → F → Option F
  | [], _, acc => some acc
  | _ :: _, [], _ => none
  | x :: xs, w :: ws, acc => dotRow xs ws (Fadd acc (Fmul w x))

/-- The outer loop of Layer.Forward over F. -/
def forwardRows (fexp ftanh : F → F) (act : ActivationFunc) (input : VecF) :
    MatF → VecF → Option VecF
  | [], _ => some []
  | _ :: _, [] => none
  | row :: rows, b :: bs => do
    let s ← dotRow input row b
    let rest ← forwardRows fexp ftanh act input rows bs
    pure (act.Activate fexp ftanh s :: rest)

/-- Layer.Forward over F. -/
def Layer.Forward (fexp ftanh : F → F) (l : Layer) (input : VecF) :
    Option (Layer × VecF) := do
  let z ← forwardRows fexp ftanh l.Activation input l.Weights l.Biases
  let output ← if l.Activation = .softmax then softmaxActivateVector fexp z else pure z
  pure ({ l with inputs := input, outputs := output }, output)

/-- The delta loop of Layer.Backward over F. -/
def mkDeltas (fexp ftanh : F → F) (act : ActivationFunc) : VecF → VecF → Option VecF
  | [], _ => some []
  | _ :: _, [] => none
  | o :: os, e :: es => do
    let rest ← mkDeltas fexp ftanh act os es
    pure ((if act = .softmax then e else Fmul e (act.Derivative fexp ftanh o)) :: rest)

/-- One prevError entry over F. -/
def colDot : VecF → MatF → ℕ → F → Option F
  | [], _, _, acc => some acc
  | _ :: _, [], _, _ => none
  | d :: ds, row :: rows, j, acc => do
    let w ← row.get? j
    colDot ds rows j (Fadd acc (Fmul d w))

/-- The prevError loop over F. -/
def prevErrorGo (deltas : VecF) (weights : MatF) : VecF → ℕ → Option VecF
  | [], _ => some []
  | _ :: rest, j => do
    let s ← colDot deltas weights j (F.fin 0)
    let others ← prevErrorGo deltas weights rest (j + 1)
    pure (s :: others)

/-- prevError of Layer.Backward over F. -/
def prevErrorCalc (deltas : VecF) (weights : MatF) (inputs : VecF) : Option VecF :=
  prevErrorGo deltas weights inputs 0

/-- The weight-update inner loop of Layer.Backward over F. -/
def updateRow (lr di : F) : VecF → VecF → Option VecF
  | [], _ => some []
  | _ :: _, [] => none
  | w :: ws, x :: xs => do
    let rest ← updateRow lr di ws xs
    pure ((Fsub w (Fmul (Fmul lr di) x)) :: rest)

/-- The parameter-update loop of Layer.Backward over F. -/
def updateWB (lr : F) (inputs : VecF) : MatF → VecF → VecF → Option (MatF × VecF)
  | [], bs, _ => some ([], bs)
  | _ :: _, [], _ => none
  | _ :: _, _ :: _, [] => none
  | row :: rows, b :: bs, d :: ds => do
    let row2 ← updateRow lr d row inputs
    let r ← updateWB lr inputs rows bs ds
    pure (row2 :: r.1, (Fsub b (Fmul lr d)) :: r.2)

/-- Layer.Backward over F. -/
def Layer.Backward (fexp ftanh : F → F) (l : Layer) (errorGrad : VecF)
    (learningRate : F) : Option (Layer × VecF) := do
  let ds ← mkDeltas fexp ftanh l.Activation l.outputs errorGrad
  let prevError ← prevErrorCalc ds l.Weights l.inputs
  if Flt (F.fin 0) learningRate then
    let wb ← updateWB learningRate l.inputs l.Weights l.Biases ds
    pure ({ l with deltas := ds, Weights := wb.1, Biases := wb.2 }, prevError)
  else
    pure ({ l with deltas := ds }, prevError)

/-- The network over F. -/
structure NeuralNetwork where
  Layers : List Layer
deriving DecidableEq, Repr

/-- The loop of NeuralNetwork.Forward over F. -/
def forwardLayers (fexp ftanh : F → F) : List Layer → VecF → Option (List Layer × VecF)
  | [], input => some ([], input)
  | l :: ls, input => do
    let r1 ← l.Forward fexp ftanh input
    let r2 ← forwardLayers fexp ftanh ls r1.2
    pure (r1.1 :: r2.1, r2.2)

/-- The zero accumulators of TrainBatch over F. -/
def zeroAccs (layers : List Layer) : List (MatF × VecF) :=
  layers.map (fun l =>
    (l.Weights.map (fun row => row.map (fun _ => F.fin 0)),
     l.Biases.map (fun _ => F.fin 0)))

/-- Weight-gradient row accumulation over F. -/
def accRow (di : F) : VecF → VecF → Option VecF
  | [], rest => some rest
  | _ :: _, [] => none
  | x :: xs, g :: gs => do
    let rest ← accRow di xs gs
    pure ((Fadd g (Fmul di x)) :: rest)

/-- Weight-gradient matrix accumulation over F. -/
def accMat (inputs : VecF) : VecF → MatF → Option MatF
  | [], rest => some rest
  | _ :: _, [] => none
  | d :: ds, row :: rows => do
    let row2 ← accRow d inputs row
    let rows2 ← accMat inputs ds rows
    pure (row2 :: rows2)

/-- Bias-gradient accumulation over F. -/
def accBias : VecF → VecF → Option VecF
  | [], rest => some rest
  | _ :: _, [] => none
  | d :: ds, b :: bs => do
    let rest ← accBias ds bs
    pure ((Fadd b d) :: rest)

/-- The inner backward loop of TrainBatch over F. -/
def batchBack (fexp ftanh : F → F) :
    List Layer → List (MatF × VecF) → VecF →
    Option (List Layer × List (MatF × VecF) × VecF)
  | [], _, eg => some ([], [], eg)
  | _ :: _, [], _ => none
  | l :: ls, acc :: accs, eg => do
    let r ← batchBack fexp ftanh ls accs eg
    let rb ← l.Backward fexp ftanh r.2.2 (F.fin 0)
    let eg2 ← prevErrorCalc rb.1.deltas rb.1.Weights rb.1.inputs
    let g2 ← accMat rb.1.inputs rb.1.deltas acc.1
    let bg2 ← accBias rb.1.deltas acc.2
    pure (rb.1 :: r.1, (g2, bg2) :: r.2.1, eg2)

/-- The per-sample loop of TrainBatch over F. -/
def sampleLoop (fexp ftanh flog : F → F) :
    List VecF → List VecF → List Layer → List (MatF × VecF) →
    Option (List Layer × List (MatF × VecF))
  | [], _, layers, accs => some (layers, accs)
  | _ :: _, [], _, _ => none
  | x :: xs, y :: ys, layers, accs => do
    let rf ← forwardLayers fexp ftanh layers x
    let rl ← CrossEntropyLoss flog rf.2 y
    let rb ← batchBack fexp ftanh rf.1 accs rl.2
    sampleLoop fexp ftanh flog xs ys rb.1 rb.2.1

/-- The final update inner loop of TrainBatch over F: subtract
learningRate * accumulated / batchSize. -/
def applyRow (lr bs : F) : VecF → VecF → Option VecF
  | [], _ => some []
  | _ :: _, [] => none
  | w :: ws, g :: gs => do
    let rest ← applyRow lr bs ws gs
    pure ((Fsub w (Fdiv (Fmul lr g) bs)) :: rest)

/-- The final update of one layer of TrainBatch over F. -/
def applyWB (lr bs : F) : MatF → VecF → MatF → VecF → Option (MatF × VecF)
  | [], bleft, _, _ => some ([], bleft)
  | _ :: _, [], _, _ => none
  | _ :: _, _ :: _, [], _ => none
  | _ :: _, _ :: _, _ :: _, [] => none
  | row :: rows, b :: bbs, g :: gs, bg :: bgs => do
    let row2 ← applyRow lr bs row g
    let r ← applyWB lr bs rows bbs gs bgs
    pure (row2 :: r.1, (Fsub b (Fdiv (Fmul lr bg) bs)) :: r.2)

/-- The final update over all layers of TrainBatch over F. -/
def applyLayers (lr bs : F) : List Layer → List (MatF × VecF) → Option (List Layer)
  | [], _ => some []
  | _ :: _, [] => none
  | l :: ls, acc :: accs => do
    let wb ← applyWB lr bs l.Weights l.Biases acc.1 acc.2
    let rest ← applyLayers lr bs ls accs
    pure ({ l with Weights := wb.1, Biases := wb.2 } :: rest)

/-- NeuralNetwork.TrainBatch over F; float64(batchSize) is the exact
conversion of the batch length. -/
def NeuralNetwork.TrainBatch (fexp ftanh flog : F → F) (nn : NeuralNetwork)
    (inputs targets : List VecF) (learningRate : F) : Option NeuralNetwork := do
  let batchSize := inputs.length
  let r ← sampleLoop fexp ftanh flog inputs targets nn.Layers (zeroAccs nn.Layers)
  let layers2 ← applyLayers learningRate (F.fin (batchSize : ℚ)) r.1 r.2
  pure ⟨layers2⟩

/-- Concrete one-layer network over F used for the C10 witness. -/
def c10net : NeuralNetwork :=
  ⟨[{ Weights := [[F.fin 1]], Biases := [F.fin 0],
      Activation := ActivationFunc.sigmoid }]⟩

end NNF

namespace NN

theorem celGo_some (flog : ℚ → ℚ) :
    ∀ (p t : Vec) (acc : ℚ), p.length ≤ t.length →
    ∃ r, celGo flog p t acc = some r ∧
      r.2 = (p.zip t).map (fun pt => clampProb pt.1 - pt.2) := by
  intro p
  induction p with
  | nil => intro t acc _; exact ⟨(acc, []), rfl, by simp⟩
  | cons ph ps ih =>
    intro t acc hlen
    cases t with
    | nil => simp at hlen
    | cons th ts =>
      obtain ⟨r, hr, hg⟩ := ih ts (acc - th * flog (clampProb ph)) (by simpa using hlen)
      exact ⟨(r.1, (clampProb ph - th) :: r.2), by simp [celGo, hr], by simp [hg]⟩

theorem celGo_none_iff (flog : ℚ → ℚ) :
    ∀ (p t : Vec) (acc : ℚ), celGo flog p t acc = none ↔ t.length < p.length := by
  intro p
  induction p with
  | nil => intro t acc; simp [celGo]
  | cons ph ps ih =>
    intro t acc
    cases t with
    | nil => simp [celGo]
    | cons th ts =>
      cases h : celGo flog ps ts (acc - th * flog (clampProb ph)) with
      | none =>
        have hlt := (ih ts (acc - th * flog (clampProb ph))).mp h
        simp only [celGo, h, Option.bind_eq_none, List.length_cons]
        constructor
        · intro _; omega
        · intro _; rfl
      | some r =>
        have hnlt : ¬ ts.length < ps.length := by
          intro hc
          rw [(ih ts (acc - th * flog (clampProb ph))).mpr hc] at h
          cases h
        simp only [celGo, h, List.length_cons]
        constructor
        · intro hc; cases hc
        · intro hc; exact absurd (by omega) hnlt

theorem mseGo_none_iff :
    ∀ (p t : Vec) (acc : ℚ), mseGo p t acc = none ↔ t.length < p.length := by
  intro p
  induction p with
  | nil => intro t acc; simp [mseGo]
  | cons ph ps ih =>
    intro t acc
    cases t with
    | nil => simp [mseGo]
    | cons th ts =>
      cases h : mseGo ps ts (acc + (ph - th) * (ph - th)) with
      | none =>
        have hlt := (ih ts (acc + (ph - th) * (ph - th))).mp h
        simp only [mseGo, h, Option.bind_eq_none, List.length_cons]
        constructor
        · intro _; omega
        · intro _; rfl
      | some r =>
        have hnlt : ¬ ts.length < ps.length := by
          intro hc
          rw [(ih ts (acc + (ph - th) * (ph - th))).mpr hc] at h
          cases h
        simp only [mseGo, h, List.length_cons]
        constructor
        · intro hc; cases hc
        · intro hc; exact absurd (by omega) hnlt

/-- C2 counterexample: at predicted = [2], target = [0] the returned gradient
entry is the clamped probability 1 - 1/10^15, not the raw difference
predicted - target = 2. The gradient of CrossEntropyLoss is computed from the
clamped value, contrary to the claim. -/
theorem cel_raw_grad_counterexample :
    CrossEntropyLoss (fun _ => 0) [2] [0] = some (0, [1 - 1 / 10 ^ 15]) ∧
    ((1 : ℚ) - 1 / 10 ^ 15) ≠ 2 - 0 := by
  constructor
  · simp [CrossEntropyLoss, celGo, clampProb, epsilonCE]
    norm_num
  · norm_num

/-- C2 amended: for equal-or-longer targets CrossEntropyLoss succeeds and
every gradient entry is clampProb(predicted i) - target i: the clamp into
the interval from 1/10^15 to 1 - 1/10^15 feeds both the log term and the
gradient. -/
theorem cel_grad_clamped (flog : ℚ → ℚ) (predicted target : Vec)
    (hlen : predicted.length ≤ target.length) :
    ∃ r, CrossEntropyLoss flog predicted target = some r ∧
      r.2 = (predicted.zip target).map (fun pt => clampProb pt.1 - pt.2) :=
  celGo_some flog predicted target 0 hlen

/-- C2 amended, concrete instance. -/
theorem cel_grad_clamped_witness :
    ∃ r, CrossEntropyLoss (fun _ => 0) [2] [1] = some r ∧
      r.2 = ((([2] : Vec).zip [1]).map (fun pt => clampProb pt.1 - pt.2)) :=
  cel_grad_clamped (fun _ => 0) [2] [1] (by simp)

/-- C7 counterexample: with predicted = [1/2] and target = [1, 1] the lengths
differ, yet both CrossEntropyLoss and MSELoss return a result, silently
ignoring the extra target entry. -/
theorem loss_len_mismatch_counterexample :
    ([(1 : ℚ)/2].length ≠ [(1 : ℚ), 1].length) ∧
    (CrossEntropyLoss (fun _ => 0) [1/2] [1, 1]).isSome = true ∧
    (MSELoss [1/2] [1, 1]).isSome = true := by
  refine ⟨by simp, ?_, ?_⟩
  · simp [CrossEntropyLoss, celGo]
  · simp [MSELoss, mseGo]

/-- C7 amended: CrossEntropyLoss and MSELoss panic exactly when the target is
shorter than the predicted vector (the index into target runs out); when the
target is at least as long, both succeed, silently ignoring any extra target
entries. -/
theorem loss_len_mismatch_iff (flog : ℚ → ℚ) (predicted target : Vec) :
    (CrossEntropyLoss flog predicted target = none ↔
      target.length < predicted.length) ∧
    (MSELoss predicted target = none ↔ target.length < predicted.length) := by
  constructor
  · exact celGo_none_iff flog predicted target 0
  · constructor
    · intro h
      rcases hm : mseGo predicted target 0 with _ | r
      · exact (mseGo_none_iff predicted target 0).mp hm
      · rw [MSELoss, hm] at h; cases h
    · intro h
      rw [MSELoss, (mseGo_none_iff predicted target 0).mpr h]
      rfl

/-- C8: Softmax.ActivateVector panics on an empty input (it reads input[0]
unconditionally) and on every non-empty input returns a vector of the same
length. -/
theorem softmax_vector_total (fexp : ℚ → ℚ) :
    softmaxActivateVector fexp [] = none ∧
    ∀ input : Vec, input ≠ [] →
      ∃ out, softmaxActivateVector fexp input = some out ∧
        out.length = input.length := by
  refine ⟨rfl, ?_⟩
  intro input hne
  cases input with
  | nil => exact absurd rfl hne
  | cons v0 rest => exact ⟨_, rfl, by simp [softmaxActivateVector]⟩

/-- C8, concrete instance. -/
theorem softmax_vector_total_witness :
    ∃ out, softmaxActivateVector (fun _ => 0) [1, 2] = some out ∧
      out.length = ([1, 2] : Vec).length :=
  (softmax_vector_total (fun _ => 0)).2 [1, 2] (by simp)

theorem loadLayers_none :
    ∀ (ls : List serialLayer) (sl : serialLayer), sl ∈ ls → loadLayer sl = none →
      loadLayers ls = none := by
  intro ls
  induction ls with
  | nil => intro sl h; cases h
  | cons hd tl ih =>
    intro sl hmem hnone
    rcases List.mem_cons.mp hmem with h | h
    · subst h; simp [loadLayers, hnone]
    · cases hhd : loadLayer hd with
      | none => simp [loadLayers, hhd]
      | some l => simp [loadLayers, hhd, ih sl h hnone]

/-- C5 counterexample: the tag SIGMOID is a string other than sigmoid, relu
and softmax, yet Load does not fail: strings.ToLower maps it to sigmoid and a
network is reconstructed. -/
theorem load_case_insensitive_counterexample :
    ("SIGMOID" ≠ "sigmoid" ∧ "SIGMOID" ≠ "relu" ∧ "SIGMOID" ≠ "softmax") ∧
    Load c5model =
      some ⟨[{ Weights := [[1]], Biases := [0],
               Activation := ActivationFunc.sigmoid }]⟩ := by
  refine ⟨⟨by decide, by decide, by decide⟩, ?_⟩
  have h : activationFromName "SIGMOID" = some ActivationFunc.sigmoid := by decide
  simp [Load, c5model, loadLayers, loadLayer, h]

/-- C5 amended: tags are compared after strings.ToLower; a persisted model
containing a layer whose lowercased tag is none of sigmoid, relu, softmax is a
fatal load error (none), never a silent default substitution. -/
theorem load_unknown_tag_fatal (m : serialModel) (sl : serialLayer)
    (hmem : sl ∈ m.Layers)
    (htag : toLowerStr sl.Activation ≠ "sigmoid" ∧
      toLowerStr sl.Activation ≠ "relu" ∧ toLowerStr sl.Activation ≠ "softmax") :
    Load m = none := by
  have hnone : loadLayer sl = none := by
    simp [loadLayer, activationFromName, htag.1, htag.2.1, htag.2.2]
  rw [Load, loadLayers_none m.Layers sl hmem hnone]
  rfl

/-- C5 amended, concrete instance: the tag tanh is fatal. -/
theorem load_unknown_tag_fatal_witness : Load c5badmodel = none :=
  load_unknown_tag_fatal c5badmodel ⟨[[1]], [0], "tanh"⟩ (by simp [c5badmodel])
    ⟨by decide, by decide, by decide⟩

theorem activationName_unknown (a : ActivationFunc) (ha : ¬ serializable a) :
    activationName a = "unknown" := by
  cases a <;> first
    | rfl
    | (exact absurd (by simp [serializable]) ha)

/-- C9: saving a network that contains a layer with any activation outside
the three serializable ones succeeds and writes the tag unknown for it, and
the produced model can never be loaded back: Load fails on the tag unknown.
-/
theorem save_unknown_never_loads (nn : NeuralNetwork) (l : Layer)
    (hmem : l ∈ nn.Layers) (hact : ¬ serializable l.Activation) :
    (∃ sl ∈ nn.Save.Layers, sl.Activation = "unknown") ∧ Load nn.Save = none := by
  have hname := activationName_unknown l.Activation hact
  have hsl : (⟨l.Weights, l.Biases, activationName l.Activation⟩ : serialLayer) ∈ nn.Save.Layers :=
    List.mem_map_of_mem _ hmem
  constructor
  · exact ⟨_, hsl, hname⟩
  · have hafn : activationFromName "unknown" = none := by decide
    have hnone : loadLayer ⟨l.Weights, l.Biases, activationName l.Activation⟩ = none := by
      rw [loadLayer]
      simp only [hname, hafn]
      rfl
    rw [Load, loadLayers_none nn.Save.Layers _ hsl hnone]
    rfl

/-- C9, concrete instance: a Tanh layer saves with the tag unknown and the
saved model does not load. -/
theorem save_unknown_never_loads_witness :
    (∃ sl ∈ c9net.Save.Layers, sl.Activation = "unknown") ∧ Load c9net.Save = none :=
  save_unknown_never_loads c9net
    { Weights := [[1]], Biases := [0], Activation := ActivationFunc.tanh }
    (by simp [c9net]) (by simp [serializable])

theorem loadLayers_save (ls : List Layer) (h : ∀ l ∈ ls, serializable l.Activation) :
    loadLayers (ls.map (fun l => ⟨l.Weights, l.Biases, activationName l.Activation⟩)) =
      some (ls.map (fun l =>
        { Weights := l.Weights, Biases := l.Biases, Activation := l.Activation })) := by
  induction ls with
  | nil => rfl
  | cons hd tl ih =>
    have hhd : activationFromName (activationName hd.Activation) = some hd.Activation := by
      rcases h hd (by simp) with h1 | h1 | h1 <;> rw [h1] <;> decide
    simp [loadLayers, loadLayer, hhd, ih (fun l hl => h l (by simp [hl]))]

theorem layerForward_wb (fexp ftanh : ℚ → ℚ) (l1 l2 : Layer)
    (hW : l1.Weights = l2.Weights) (hB : l1.Biases = l2.Biases)
    (hA : l1.Activation = l2.Activation) (input : Vec) :
    (l1.Forward fexp ftanh input).map
        (fun r => (r.1.Weights, r.1.Biases, r.1.Activation, r.2)) =
      (l2.Forward fexp ftanh input).map
        (fun r => (r.1.Weights, r.1.Biases, r.1.Activation, r.2)) := by
  unfold Layer.Forward
  rw [hW, hB, hA]
  cases forwardRows fexp ftanh l2.Activation input l2.Weights l2.Biases with
  | none => rfl
  | some z =>
    by_cases hs : l2.Activation = ActivationFunc.softmax
    · cases hso : softmaxActivateVector fexp z <;> simp [hs, hso]
    · simp [hs]

theorem forwardLayers_wb (fexp ftanh : ℚ → ℚ) :
    ∀ (ls1 ls2 : List Layer) (input : Vec),
    ls1.map (fun l => (l.Weights, l.Biases, l.Activation)) =
      ls2.map (fun l => (l.Weights, l.Biases, l.Activation)) →
    (forwardLayers fexp ftanh ls1 input).map (fun r => r.2) =
      (forwardLayers fexp ftanh ls2 input).map (fun r => r.2) := by
  intro ls1
  induction ls1 with
  | nil =>
    intro ls2 input h
    cases ls2 with
    | nil => rfl
    | cons _ _ => simp at h
  | cons l1 t1 ih =>
    intro ls2 input h
    cases ls2 with
    | nil => simp at h
    | cons l2 t2 =>
      simp only [List.map_cons, List.cons.injEq, Prod.mk.injEq] at h
      obtain ⟨⟨hW, hB, hA⟩, htail⟩ := h
      have hf := layerForward_wb fexp ftanh l1 l2 hW hB hA input
      unfold forwardLayers
      cases h1 : l1.Forward fexp ftanh input with
      | none =>
        cases h2 : l2.Forward fexp ftanh input with
        | none => rfl
        | some r2 => rw [h1, h2] at hf; cases hf
      | some r1 =>
        cases h2 : l2.Forward fexp ftanh input with
        | none => rw [h1, h2] at hf; cases hf
        | some r2 =>
          rw [h1, h2] at hf
          have hf' := Option.some.inj hf
          have hout : r1.2 = r2.2 := congrArg (fun p => p.2.2.2) hf'
          have hrec := ih t2 r2.2 htail
          simp only [Option.bind_eq_bind, Option.some_bind]
          rw [hout]
          cases hr1 : forwardLayers fexp ftanh t1 r2.2 with
          | none =>
            cases hr2 : forwardLayers fexp ftanh t2 r2.2 with
            | none => simp
            | some s2 => rw [hr1, hr2] at hrec; cases hrec
          | some s1 =>
            cases hr2 : forwardLayers fexp ftanh t2 r2.2 with
            | none => rw [hr1, hr2] at hrec; cases hrec
            | some s2 =>
              rw [hr1, hr2] at hrec
              simp only [Option.map_some'] at hrec
              simp [hrec]

/-- C4: for a network whose layers all carry serializable activations
(Sigmoid, ReLU, Softmax included), Load of Save reconstructs a network whose
Forward result on any input is identical to the forward result of the
original network. -/
theorem save_load_roundtrip (fexp ftanh : ℚ → ℚ) (nn : NeuralNetwork)
    (h : ∀ l ∈ nn.Layers, serializable l.Activation) (input : Vec) :
    ∃ nn2, Load nn.Save = some nn2 ∧
      (nn2.Forward fexp ftanh input).map (fun r => r.2) =
        (nn.Forward fexp ftanh input).map (fun r => r.2) := by
  refine ⟨⟨nn.Layers.map (fun l =>
    { Weights := l.Weights, Biases := l.Biases, Activation := l.Activation })⟩, ?_, ?_⟩
  · rw [Load, NeuralNetwork.Save]
    rw [loadLayers_save nn.Layers h]
    rfl
  · have hwb := forwardLayers_wb fexp ftanh
      (nn.Layers.map (fun l =>
        { Weights := l.Weights, Biases := l.Biases, Activation := l.Activation }))
      nn.Layers input (by simp)
    unfold NeuralNetwork.Forward
    cases h1 : forwardLayers fexp ftanh (nn.Layers.map (fun l =>
        { Weights := l.Weights, Biases := l.Biases, Activation := l.Activation })) input with
    | none =>
      cases h2 : forwardLayers fexp ftanh nn.Layers input with
      | none => rfl
      | some r2 => rw [h1, h2] at hwb; cases hwb
    | some r1 =>
      cases h2 : forwardLayers fexp ftanh nn.Layers input with
      | none => rw [h1, h2] at hwb; cases hwb
      | some r2 =>
        rw [h1, h2] at hwb
        simp only [Option.map_some'] at hwb
        simp [hwb]

theorem dotRow_some :
    ∀ (input row : Vec) (acc : ℚ), input.length ≤ row.length →
      ∃ q, dotRow input row acc = some q := by
  intro input
  induction input with
  | nil => intro row acc _; exact ⟨acc, rfl⟩
  | cons x xs ih =>
    intro row acc h
    cases row with
    | nil => simp at h
    | cons w ws => exact ih ws (acc + w * x) (by simpa using h)

theorem dotRow_none :
    ∀ (input row : Vec) (acc : ℚ), row.length < input.length →
      dotRow input row acc = none := by
  intro input
  induction input with
  | nil => intro row acc h; simp at h
  | cons x xs ih =>
    intro row acc h
    cases row with
    | nil => rfl
    | cons w ws => exact ih ws (acc + w * x) (by simpa using h)

theorem forwardRows_length (fexp ftanh : ℚ → ℚ) (act : ActivationFunc) (input : Vec) :
    ∀ (W : Mat) (B : Vec) (z : Vec),
      forwardRows fexp ftanh act input W B = some z → z.length = W.length := by
  intro W
  induction W with
  | nil =>
    intro B z h
    cases B <;> (injection h with h; subst h; rfl)
  | cons row rows ih =>
    intro B z h
    cases B with
    | nil => cases h
    | cons b bs =>
      rw [forwardRows] at h
      simp only [Option.bind_eq_bind, Option.bind_eq_some, Option.pure_def,
        Option.some.injEq] at h
      obtain ⟨s, hs, rest, hr, hz⟩ := h
      rw [← hz]
      simp [ih bs rest hr]

theorem forwardRows_some (fexp ftanh : ℚ → ℚ) (act : ActivationFunc) (input : Vec) :
    ∀ (W : Mat) (B : Vec), W.length ≤ B.length →
      (∀ row ∈ W, input.length ≤ row.length) →
      ∃ z, forwardRows fexp ftanh act input W B = some z ∧ z.length = W.length := by
  intro W
  induction W with
  | nil => intro B _ _; exact ⟨[], rfl, rfl⟩
  | cons row rows ih =>
    intro B hB hrows
    cases B with
    | nil => simp at hB
    | cons b bs =>
      obtain ⟨s, hs⟩ := dotRow_some input row b (hrows row (by simp))
      obtain ⟨z, hz, hzl⟩ := ih bs (by simpa using hB) (fun r hr => hrows r (by simp [hr]))
      exact ⟨act.Activate fexp ftanh s :: z, by simp [forwardRows, hs, hz], by simp [hzl]⟩

theorem softmaxActivateVector_some (fexp : ℚ → ℚ) (z : Vec) (hz : z ≠ []) :
    ∃ out, softmaxActivateVector fexp z = some out ∧ out.length = z.length := by
  cases z with
  | nil => exact absurd rfl hz
  | cons v0 rest => exact ⟨_, rfl, by simp [softmaxActivateVector]⟩

theorem softmaxActivateVector_length (fexp : ℚ → ℚ) :
    ∀ (z out : Vec), softmaxActivateVector fexp z = some out → out.length = z.length := by
  intro z out h
  cases z with
  | nil => cases h
  | cons v0 rest =>
    simp only [softmaxActivateVector, Option.some.injEq] at h
    rw [← h]
    simp

theorem layerForward_inv (fexp ftanh : ℚ → ℚ) (l : Layer) (input : Vec)
    (l2 : Layer) (out : Vec) (h : l.Forward fexp ftanh input = some (l2, out)) :
    l2 = { l with inputs := input, outputs := out } ∧
      out.length = l.Weights.length := by
  rw [Layer.Forward] at h
  simp only [Option.bind_eq_bind, Option.bind_eq_some] at h
  obtain ⟨z, hz, h⟩ := h
  have hzlen := forwardRows_length fexp ftanh l.Activation input l.Weights l.Biases z hz
  by_cases hs : l.Activation = ActivationFunc.softmax
  · rw [if_pos hs] at h
    obtain ⟨out1, hout1, h⟩ := Option.bind_eq_some.mp h
    have hlen := softmaxActivateVector_length fexp z out1 hout1
    simp only [Option.pure_def, Option.some.injEq, Prod.ext_iff] at h
    obtain ⟨h1, h2⟩ := h
    subst h2
    exact ⟨h1.symm, by rw [hlen, hzlen]⟩
  · rw [if_neg hs] at h
    simp only [Option.pure_def, Option.some_bind, Option.some.injEq, Prod.ext_iff] at h
    obtain ⟨h1, h2⟩ := h
    subst h2
    exact ⟨h1.symm, by rw [hzlen]⟩

theorem layerForward_some (fexp ftanh : ℚ → ℚ) (l : Layer) (input : Vec)
    (hB : l.Weights.length ≤ l.Biases.length)
    (hrows : ∀ row ∈ l.Weights, input.length ≤ row.length)
    (hpos : 0 < l.Weights.length) :
    ∃ out, l.Forward fexp ftanh input =
      some ({ l with inputs := input, outputs := out }, out) ∧
      out.length = l.Weights.length := by
  obtain ⟨z, hz, hzl⟩ := forwardRows_some fexp ftanh l.Activation input l.Weights l.Biases hB hrows
  by_cases hs : l.Activation = ActivationFunc.softmax
  · have hzne : z ≠ [] := by
      intro hznil
      rw [hznil] at hzl
      simp at hzl
      omega
    obtain ⟨out, hout, houtl⟩ := softmaxActivateVector_some fexp z hzne
    refine ⟨out, ?_, by rw [houtl, hzl]⟩
    rw [Layer.Forward]
    simp [hz, if_pos hs, hout]
  · refine ⟨z, ?_, hzl⟩
    rw [Layer.Forward]
    simp [hz, if_neg hs]

theorem forwardLayers_exact (fexp ftanh : ℚ → ℚ) :
    ∀ (layers : List Layer) (nIn nOut : ℕ) (input : Vec),
      LayersShaped layers nIn nOut → (∀ l ∈ layers, 0 < l.Weights.length) →
      input.length = nIn →
      ∃ r, forwardLayers fexp ftanh layers input = some r ∧ r.2.length = nOut := by
  intro layers
  induction layers with
  | nil =>
    intro nIn nOut input hsh _ hlen
    exact ⟨([], input), rfl, by rw [hlen]; exact hsh⟩
  | cons l ls ih =>
    intro nIn nOut input hsh hpos hlen
    obtain ⟨⟨_, hBl, hrows⟩, hsh'⟩ := hsh
    obtain ⟨out, hout, houtl⟩ := layerForward_some fexp ftanh l input (le_of_eq hBl.symm)
      (fun row hr => by rw [hrows row hr, hlen]) (hpos l (by simp))
    obtain ⟨r, hr, hrl⟩ := ih l.Weights.length nOut out hsh'
      (fun l2 h2 => hpos l2 (by simp [h2])) houtl
    exact ⟨({ l with inputs := input, outputs := out } :: r.1, r.2),
      by simp [forwardLayers, hout, hr], hrl⟩

/-- C3 counterexample: c3net is built from the size list [2, 1], the input
[1] has length 1, different from 2, yet Forward does not fail: the Go loop
ranges over the shorter input and silently uses only the first weight of each
row. -/
theorem forward_short_input_counterexample :
    LayersShaped c3net.Layers 2 1 ∧
    (([(1 : ℚ)] : Vec).length ≠ 2) ∧
    c3net.Forward (fun _ => 0) (fun _ => 0) [1] ≠ none := by
  refine ⟨?_, by simp, ?_⟩
  · refine ⟨⟨rfl, rfl, ?_⟩, rfl⟩
    intro row hr
    simp only [c3net, List.mem_singleton] at hr
    rw [hr]
    rfl
  · have h : c3net.Forward (fun _ => 0) (fun _ => 0) [1] =
        some (⟨[{ Weights := [[1, 1]], Biases := [0],
                  Activation := ActivationFunc.linear,
                  inputs := [1], outputs := [1], deltas := [] }]⟩, [1]) := by
      simp [NeuralNetwork.Forward, forwardLayers, Layer.Forward, forwardRows,
        dotRow, c3net, ActivationFunc.Activate]
    rw [h]
    simp

/-- C3 amended: for a Network built from sizes [s0, ..., sL] (at least one
layer, all sizes positive), Forward on an input of length s0 returns an output
of length sL; an input longer than s0 fails; but an input shorter than s0 does
not fail: it also returns an output of length sL, computed from the first
entries of each weight row. -/
theorem forward_shape_amended (fexp ftanh : ℚ → ℚ) (nn : NeuralNetwork) (n m : ℕ)
    (hshape : LayersShaped nn.Layers n m)
    (hpos : ∀ l ∈ nn.Layers, 0 < l.Weights.length)
    (hne : nn.Layers ≠ []) :
    (∀ input : Vec, input.length ≤ n →
      ∃ r, nn.Forward fexp ftanh input = some r ∧ r.2.length = m) ∧
    (∀ input : Vec, n < input.length → nn.Forward fexp ftanh input = none) := by
  constructor
  · intro input hlen
    cases hL : nn.Layers with
    | nil => exact absurd hL hne
    | cons l ls =>
      rw [hL] at hshape
      obtain ⟨⟨_, hBl, hrows⟩, hsh'⟩ := hshape
      obtain ⟨out, hout, houtl⟩ := layerForward_some fexp ftanh l input (le_of_eq hBl.symm)
        (fun row hr => le_trans hlen (le_of_eq (hrows row hr).symm))
        (hpos l (by simp [hL]))
      obtain ⟨r, hr, hrl⟩ := forwardLayers_exact fexp ftanh ls l.Weights.length m out hsh'
        (fun l2 h2 => hpos l2 (by simp [hL, h2])) houtl
      refine ⟨(⟨{ l with inputs := input, outputs := out } :: r.1⟩, r.2), ?_, hrl⟩
      rw [NeuralNetwork.Forward, hL]
      simp [forwardLayers, hout, hr]
  · intro input hlen
    cases hL : nn.Layers with
    | nil => exact absurd hL hne
    | cons l ls =>
      rw [hL] at hshape
      obtain ⟨⟨_, hBl, hrows⟩, _⟩ := hshape
      have hWpos := hpos l (by simp [hL])
      rw [NeuralNetwork.Forward, hL]
      cases hW : l.Weights with
      | nil => rw [hW] at hWpos; simp at hWpos
      | cons row rows =>
        cases hBc : l.Biases with
        | nil =>
          rw [hW, hBc] at hBl
          simp at hBl
        | cons b bs =>
          have hdr : dotRow input row b = none :=
            dotRow_none input row b (by rw [hrows row (by rw [hW]; simp)]; exact hlen)
          simp [forwardLayers, Layer.Forward, hW, hBc, forwardRows, hdr]

/-- C3 amended, concrete instance. -/
theorem forward_shape_amended_witness :
    (∃ r, c3net.Forward (fun _ => 0) (fun _ => 0) [1, 2] = some r ∧ r.2.length = 1) ∧
    c3net.Forward (fun _ => 0) (fun _ => 0) [1, 2, 3] = none := by
  have hsh : LayersShaped c3net.Layers 2 1 := by
    refine ⟨⟨rfl, rfl, ?_⟩, rfl⟩
    intro row hr
    simp only [c3net, List.mem_singleton] at hr
    rw [hr]
    rfl
  have hpos : ∀ l ∈ c3net.Layers, 0 < l.Weights.length := by
    intro l hl
    simp only [c3net, List.mem_singleton] at hl
    rw [hl]
    simp
  have h := forward_shape_amended (fun _ => 0) (fun _ => 0) c3net 2 1 hsh hpos
    (by simp [c3net])
  exact ⟨h.1 [1, 2] (by simp), h.2 [1, 2, 3] (by simp)⟩

theorem mkDeltas_some (fexp ftanh : ℚ → ℚ) (act : ActivationFunc) :
    ∀ (outputs eg : Vec), outputs.length ≤ eg.length →
      ∃ D, mkDeltas fexp ftanh act outputs eg = some D ∧
        D.length = outputs.length := by
  intro outputs
  induction outputs with
  | nil => intro eg _; exact ⟨[], rfl, rfl⟩
  | cons o os ih =>
    intro eg h
    cases eg with
    | nil => simp at h
    | cons e es =>
      obtain ⟨D, hD, hDl⟩ := ih es (by simpa using h)
      exact ⟨(if act = ActivationFunc.softmax then e
          else e * act.Derivative fexp ftanh o) :: D,
        by simp [mkDeltas, hD], by simp [hDl]⟩

theorem colDot_some :
    ∀ (D : Vec) (W : Mat) (j : ℕ) (acc : ℚ), D.length ≤ W.length →
      (∀ row ∈ W, j < row.length) → ∃ q, colDot D W j acc = some q := by
  intro D
  induction D with
  | nil => intro W j acc _ _; exact ⟨acc, rfl⟩
  | cons d ds ih =>
    intro W j acc hlen hrow
    cases W with
    | nil => simp at hlen
    | cons row rows =>
      have hj : j < row.length := hrow row (by simp)
      cases hg : row.get? j with
      | none =>
        have := List.get?_eq_none.mp hg
        omega
      | some w =>
        obtain ⟨q, hq⟩ := ih rows j (acc + d * w) (by simpa using hlen)
          (fun r hr => hrow r (by simp [hr]))
        refine ⟨q, ?_⟩
        rw [colDot, hg]
        exact hq

theorem prevErrorGo_some (D : Vec) (W : Mat) (nIn : ℕ)
    (hD : D.length ≤ W.length) (hrows : ∀ row ∈ W, row.length = nIn) :
    ∀ (rest : Vec) (j : ℕ), j + rest.length ≤ nIn →
      ∃ pe, prevErrorGo D W rest j = some pe ∧ pe.length = rest.length := by
  intro rest
  induction rest with
  | nil => intro j _; exact ⟨[], rfl, rfl⟩
  | cons _ xs ih =>
    intro j h
    obtain ⟨q, hq⟩ := colDot_some D W j 0 hD
      (fun r hr => by rw [hrows r hr]; simp at h; omega)
    obtain ⟨pe, hpe, hpel⟩ := ih (j + 1) (by simp at h ⊢; omega)
    exact ⟨q :: pe, by simp [prevErrorGo, hq, hpe], by simp [hpel]⟩

theorem backward_structure (fexp ftanh : ℚ → ℚ) (l : Layer) (eg : Vec) (nIn : ℕ)
    (hrows : ∀ row ∈ l.Weights, row.length = nIn)
    (hin : l.inputs.length = nIn)
    (hout : l.outputs.length = l.Weights.length)
    (heg : l.outputs.length ≤ eg.length) :
    ∃ D PE,
      mkDeltas fexp ftanh l.Activation l.outputs eg = some D ∧
      D.length = l.outputs.length ∧
      prevErrorCalc D l.Weights l.inputs = some PE ∧
      PE.length = nIn ∧
      l.Backward fexp ftanh eg 0 = some ({ l with deltas := D }, PE) := by
  obtain ⟨D, hD, hDl⟩ := mkDeltas_some fexp ftanh l.Activation l.outputs eg heg
  have hDW : D.length ≤ l.Weights.length := by rw [hDl, hout]
  obtain ⟨PE, hPE, hPEl⟩ := prevErrorGo_some D l.Weights nIn hDW hrows l.inputs 0
    (by omega)
  refine ⟨D, PE, hD, hDl, hPE, by rw [hPEl, hin], ?_⟩
  simp only [Layer.Backward, prevErrorCalc]
  simp [hD, hPE]

/-- C6: with a learning rate of exactly 0, Backward leaves Weights and Biases
untouched, still stores the freshly computed deltas, and returns a prevError
of length inputSize computed from the (unchanged, hence pre-update) weights;
any learning rate at most 0 behaves identically, and for every learning rate
the returned prevError is the same vector, computed before any update. -/
theorem backward_zero_frame (fexp ftanh : ℚ → ℚ) (l : Layer) (eg : Vec) (nIn : ℕ)
    (hrows : ∀ row ∈ l.Weights, row.length = nIn)
    (hin : l.inputs.length = nIn)
    (hout : l.outputs.length = l.Weights.length)
    (heg : eg.length = l.outputs.length) :
    ∃ l0 PE, l.Backward fexp ftanh eg 0 = some (l0, PE) ∧
      l0.Weights = l.Weights ∧ l0.Biases = l.Biases ∧
      l0.deltas.length = l.outputs.length ∧
      prevErrorCalc l0.deltas l0.Weights l0.inputs = some PE ∧
      PE.length = nIn ∧
      (∀ lr : ℚ, lr ≤ 0 → l.Backward fexp ftanh eg lr = some (l0, PE)) ∧
      (∀ (lr : ℚ) (l2 : Layer) (PE2 : Vec),
        l.Backward fexp ftanh eg lr = some (l2, PE2) → PE2 = PE) := by
  obtain ⟨D, PE, hD, hDl, hPE, hPEl, hB0⟩ :=
    backward_structure fexp ftanh l eg nIn hrows hin hout (le_of_eq heg.symm)
  have hPE' : prevErrorGo D l.Weights l.inputs 0 = some PE := hPE
  refine ⟨{ l with deltas := D }, PE, hB0, rfl, rfl, by simpa using hDl,
    by simpa using hPE, hPEl, ?_, ?_⟩
  · intro lr hlr
    simp only [Layer.Backward, prevErrorCalc]
    rw [hD]
    simp only [Option.bind_eq_bind, Option.some_bind]
    rw [hPE']
    simp only [Option.some_bind]
    rw [if_neg (not_lt.mpr hlr)]
    rfl
  · intro lr l2 PE2 h
    simp only [Layer.Backward, prevErrorCalc] at h
    rw [hD] at h
    simp only [Option.bind_eq_bind, Option.some_bind] at h
    rw [hPE'] at h
    simp only [Option.some_bind] at h
    by_cases hlr : lr > 0
    · rw [if_pos hlr] at h
      obtain ⟨wb, _, h⟩ := Option.bind_eq_some.mp h
      simp only [Option.pure_def, Option.some.injEq, Prod.ext_iff] at h
      exact h.2.symm
    · rw [if_neg hlr] at h
      simp only [Option.pure_def, Option.some.injEq, Prod.ext_iff] at h
      exact h.2.symm

/-- C6, concrete instance. -/
theorem backward_zero_frame_witness :
    ∃ l0 PE, c6layer.Backward (fun _ => 0) (fun _ => 0) [1] 0 = some (l0, PE) ∧
      l0.Weights = c6layer.Weights ∧ l0.Biases = c6layer.Biases ∧
      l0.deltas.length = c6layer.outputs.length ∧
      prevErrorCalc l0.deltas l0.Weights l0.inputs = some PE ∧
      PE.length = 1 ∧
      (∀ lr : ℚ, lr ≤ 0 → c6layer.Backward (fun _ => 0) (fun _ => 0) [1] lr = some (l0, PE)) ∧
      (∀ (lr : ℚ) (l2 : Layer) (PE2 : Vec),
        c6layer.Backward (fun _ => 0) (fun _ => 0) [1] lr = some (l2, PE2) → PE2 = PE) := by
  refine backward_zero_frame (fun _ => 0) (fun _ => 0) c6layer [1] 1 ?_ rfl rfl rfl
  intro row hr
  simp only [c6layer, List.mem_singleton] at hr
  rw [hr]
  rfl

theorem celGo_grad_length (flog : ℚ → ℚ) :
    ∀ (p t : Vec) (acc : ℚ) (r : ℚ × Vec), celGo flog p t acc = some r →
      r.2.length = p.length := by
  intro p
  induction p with
  | nil =>
    intro t acc r h
    injection h with h
    rw [← h]
  | cons ph ps ih =>
    intro t acc r h
    cases t with
    | nil => cases h
    | cons th ts =>
      rw [celGo] at h
      simp only [Option.bind_eq_bind, Option.bind_eq_some, Option.pure_def,
        Option.some.injEq] at h
      obtain ⟨r2, hr2, hr⟩ := h
      rw [← hr]
      simp [ih ts _ r2 hr2]

theorem update_row_acc (lr d : ℚ) :
    ∀ (row X : Vec), row.length = X.length →
    ∃ u g, updateRow lr d row X = some u ∧
      accRow d X (row.map (fun _ => (0 : ℚ))) = some g ∧
      applyRow lr 1 row g = some u := by
  intro row
  induction row with
  | nil =>
    intro X h
    cases X with
    | nil => exact ⟨[], [], rfl, rfl, rfl⟩
    | cons _ _ => simp at h
  | cons w ws ih =>
    intro X h
    cases X with
    | nil => simp at h
    | cons x xs =>
      obtain ⟨u, g, hu, hg, ha⟩ := ih xs (by simpa using h)
      have hval : w - lr * (0 + d * x) / 1 = w - lr * d * x := by ring
      refine ⟨(w - lr * d * x) :: u, (0 + d * x) :: g, ?_, ?_, ?_⟩
      · rw [updateRow]
        simp only [hu, Option.bind_eq_bind, Option.some_bind]
        rfl
      · rw [List.map_cons, accRow]
        simp only [hg, Option.bind_eq_bind, Option.some_bind]
        rfl
      · rw [applyRow]
        simp only [ha, Option.bind_eq_bind, Option.some_bind, Option.pure_def,
          Option.some.injEq]
        rw [hval]

theorem update_wb_acc (lr : ℚ) (X : Vec) :
    ∀ (W : Mat) (B D : Vec),
    B.length = W.length → D.length = W.length →
    (∀ row ∈ W, row.length = X.length) →
    ∃ W2 B2 G BG, updateWB lr X W B D = some (W2, B2) ∧
      accMat X D (W.map (fun row => row.map (fun _ => (0 : ℚ)))) = some G ∧
      accBias D (B.map (fun _ => (0 : ℚ))) = some BG ∧
      applyWB lr 1 W B G BG = some (W2, B2) := by
  intro W
  induction W with
  | nil =>
    intro B D hB hD _
    cases B with
    | cons _ _ => simp at hB
    | nil =>
      cases D with
      | cons _ _ => simp at hD
      | nil => exact ⟨[], [], [], [], rfl, rfl, rfl, rfl⟩
  | cons row rows ih =>
    intro B D hB hD hrows
    cases B with
    | nil => simp at hB
    | cons b bs =>
      cases D with
      | nil => simp at hD
      | cons d ds =>
        obtain ⟨u, g, hu, hg, ha⟩ := update_row_acc lr d row X (hrows row (by simp))
        obtain ⟨W2, B2, G, BG, hW2, hG, hBG, hA2⟩ := ih bs ds (by simpa using hB)
          (by simpa using hD) (fun r hr => hrows r (by simp [hr]))
        have hbval : b - lr * (0 + d) / 1 = b - lr * d := by ring
        refine ⟨u :: W2, (b - lr * d) :: B2, g :: G, (0 + d) :: BG, ?_, ?_, ?_, ?_⟩
        · rw [updateWB]
          simp only [hu, hW2, Option.bind_eq_bind, Option.some_bind]
          rfl
        · rw [List.map_cons, accMat]
          simp only [hg, hG, Option.bind_eq_bind, Option.some_bind]
          rfl
        · rw [List.map_cons, accBias]
          simp only [hBG, Option.bind_eq_bind, Option.some_bind]
          rfl
        · rw [applyWB]
          simp only [ha, hA2, Option.bind_eq_bind, Option.some_bind, Option.pure_def,
            Option.some.injEq, Prod.mk.injEq]
          rw [hbval]
          simp

theorem forwardLayers_ready (fexp ftanh : ℚ → ℚ) :
    ∀ (layers : List Layer) (nIn nOut : ℕ) (input : Vec) (r : List Layer × Vec),
      LayersShaped layers nIn nOut → input.length = nIn →
      forwardLayers fexp ftanh layers input = some r →
      Ready r.1 nIn nOut ∧ r.2.length = nOut ∧ zeroAccs r.1 = zeroAccs layers := by
  intro layers
  induction layers with
  | nil =>
    intro nIn nOut input r hsh hlen h
    injection h with h
    rw [← h]
    exact ⟨hsh, by rw [hlen]; exact hsh, rfl⟩
  | cons l ls ih =>
    intro nIn nOut input r hsh hlen h
    obtain ⟨⟨_, hBl, hrows⟩, hsh'⟩ := hsh
    rw [forwardLayers] at h
    simp only [Option.bind_eq_bind, Option.bind_eq_some, Option.pure_def,
      Option.some.injEq] at h
    obtain ⟨r1, h1, r2, h2, hr⟩ := h
    obtain ⟨hl2, houtl⟩ := layerForward_inv fexp ftanh l input r1.1 r1.2 (by rw [h1])
    obtain ⟨hready', hlen', hz'⟩ := ih l.Weights.length nOut r1.2 r2 hsh'
      houtl h2
    rw [← hr]
    refine ⟨⟨?_, ?_, ?_, ?_, ?_⟩, hlen', ?_⟩
    · rw [hl2]; exact hBl
    · rw [hl2]; exact hrows
    · rw [hl2]; exact hlen
    · rw [hl2]; exact houtl
    · rw [hl2]; exact hready'
    · simp only [zeroAccs, List.map_cons] at hz' ⊢
      rw [hl2]
      simp only [List.map_cons] at hz' ⊢
      rw [hz']

theorem back_loop_equiv (fexp ftanh : ℚ → ℚ) (lr : ℚ) (hlr : 0 < lr) :
    ∀ (layers : List Layer) (nIn nOut : ℕ) (eg : Vec),
    Ready layers nIn nOut → eg.length = nOut →
    ∃ layersA egA layersB accsB,
      backLayers fexp ftanh lr layers eg = some (layersA, egA) ∧
      egA.length = nIn ∧
      batchBack fexp ftanh layers (zeroAccs layers) eg = some (layersB, accsB, egA) ∧
      applyLayers lr 1 layersB accsB = some layersA := by
  intro layers
  induction layers with
  | nil =>
    intro nIn nOut eg hready heg
    exact ⟨[], eg, [], [], rfl, by rw [heg]; exact hready.symm, rfl, rfl⟩
  | cons l ls ih =>
    intro nIn nOut eg hready heg
    obtain ⟨hB, hrows, hin, hout, hready'⟩ := hready
    obtain ⟨layersA, egA, layersB, accsB, hbackT, hegA, hbatchT, happlyT⟩ :=
      ih l.Weights.length nOut eg hready' heg
    obtain ⟨D, PE, hD, hDl, hPE, hPEl, hB0⟩ :=
      backward_structure fexp ftanh l egA nIn hrows hin hout
        (le_of_eq (by rw [hegA, hout]))
    have hPE' : prevErrorGo D l.Weights l.inputs 0 = some PE := hPE
    obtain ⟨W2, B2, G, BG, hW2, hG, hBG, hA2⟩ := update_wb_acc lr l.inputs
      l.Weights l.Biases D hB (by rw [hDl, hout])
      (fun row hr => by rw [hrows row hr, hin])
    have hBlr : l.Backward fexp ftanh egA lr =
        some ({ l with deltas := D, Weights := W2, Biases := B2 }, PE) := by
      simp only [Layer.Backward, prevErrorCalc]
      rw [hD]
      simp only [Option.bind_eq_bind, Option.some_bind]
      rw [hPE']
      simp only [Option.some_bind]
      rw [if_pos hlr, hW2]
      rfl
    refine ⟨{ l with deltas := D, Weights := W2, Biases := B2 } :: layersA, PE,
      { l with deltas := D } :: layersB, (G, BG) :: accsB, ?_, hPEl, ?_, ?_⟩
    · rw [backLayers]
      simp only [hbackT, Option.bind_eq_bind, Option.some_bind, hBlr]
      rfl
    · simp only [zeroAccs, List.map_cons, batchBack]
      have hbatchT' : batchBack fexp ftanh ls
          (List.map (fun l => (List.map (fun row => List.map (fun _ => (0 : ℚ)) row) l.Weights,
            List.map (fun _ => (0 : ℚ)) l.Biases)) ls) eg = some (layersB, accsB, egA) := by
        simpa [zeroAccs] using hbatchT
      simp only [hbatchT', Option.bind_eq_bind, Option.some_bind, hB0]
      simp only [prevErrorCalc]
      rw [hPE']
      simp only [Option.some_bind]
      rw [hG]
      simp only [Option.some_bind]
      rw [hBG]
      rfl
    · rw [applyLayers]
      simp only [hA2, happlyT, Option.bind_eq_bind, Option.some_bind, Option.pure_def,
        Option.some.injEq]

/-- C1: TrainBatch on the singleton batch [x], [y] with learningRate lr is,
parameter for parameter, the same network as Train on x, y with lr: the
accumulated gradient divided by a batch size of 1 reproduces exactly the
per-sample update of Train. -/
theorem trainBatch_single_equiv (fexp ftanh flog : ℚ → ℚ) (nn : NeuralNetwork)
    (n m : ℕ) (x y : Vec) (lr : ℚ)
    (hshape : LayersShaped nn.Layers n m) (hx : x.length = n) (_hy : y.length = m)
    (hlr : 0 < lr) :
    nn.TrainBatch fexp ftanh flog [x] [y] lr = nn.Train fexp ftanh flog x y lr := by
  simp only [NeuralNetwork.TrainBatch, NeuralNetwork.Train, NeuralNetwork.Forward,
    sampleLoop, List.length_cons, List.length_nil, Nat.cast_one, Nat.zero_add,
    Nat.cast_ofNat, zero_add]
  cases hf : forwardLayers fexp ftanh nn.Layers x with
  | none => simp [hf]
  | some rf =>
    obtain ⟨layers1, output⟩ := rf
    obtain ⟨hready, houtlen, hzacc⟩ :=
      forwardLayers_ready fexp ftanh nn.Layers n m x (layers1, output) hshape hx hf
    cases hc : CrossEntropyLoss flog output y with
    | none => simp [hf, hc]
    | some rl =>
      obtain ⟨loss, grad⟩ := rl
      have hgl : grad.length = m := by
        rw [celGo_grad_length flog output y 0 (loss, grad) hc]
        exact houtlen
      obtain ⟨layersA, egA, layersB, accsB, hback, hegA, hbatch, happly⟩ :=
        back_loop_equiv fexp ftanh lr hlr layers1 n m grad hready hgl
      rw [← hzacc] at *
      simp [hf, hc, hbatch, hback, happly, sampleLoop]

/-- C1, concrete instance. -/
theorem trainBatch_single_equiv_witness :
    c1net.TrainBatch (fun _ => 0) (fun _ => 0) (fun _ => 0) [[1]] [[0]] 1 =
      c1net.Train (fun _ => 0) (fun _ => 0) (fun _ => 0) [1] [0] 1 := by
  refine trainBatch_single_equiv (fun _ => 0) (fun _ => 0) (fun _ => 0) c1net 1 1
    [1] [0] 1 ?_ rfl rfl (by norm_num)
  refine ⟨⟨rfl, rfl, ?_⟩, rfl⟩
  intro row hr
  simp only [c1net, List.mem_singleton] at hr
  rw [hr]
  rfl

/-- C4, concrete instance. -/
theorem save_load_roundtrip_witness :
    ∃ nn2, Load c4net.Save = some nn2 ∧
      (nn2.Forward (fun _ => 0) (fun _ => 0) [1]).map (fun r => r.2) =
        (c4net.Forward (fun _ => 0) (fun _ => 0) [1]).map (fun r => r.2) :=
  save_load_roundtrip (fun _ => 0) (fun _ => 0) c4net
    (by simp [c4net, serializable]) [1]

end NN

namespace NNF

theorem fdiv_mul_zero_nan (lr : F) :
    Fdiv (Fmul lr (F.fin 0)) (F.fin 0) = F.nan := by
  cases lr with
  | fin q => simp [Fmul, Fdiv, mul_zero]
  | inf p => simp [Fmul, Fdiv]
  | nan => simp [Fmul, Fdiv]

theorem fsub_nan (w : F) : Fsub w F.nan = F.nan := by
  cases w <;> rfl

theorem applyRow_zero_nan (lr : F) :
    ∀ row : VecF, applyRow lr (F.fin 0) row (row.map (fun _ => F.fin 0)) =
      some (row.map (fun _ => F.nan)) := by
  intro row
  induction row with
  | nil => rfl
  | cons w ws ih =>
    rw [List.map_cons, List.map_cons, applyRow]
    simp only [ih, Option.bind_eq_bind, Option.some_bind]
    rw [fdiv_mul_zero_nan lr, fsub_nan]
    rfl

theorem applyWB_zero_nan (lr : F) :
    ∀ (W : MatF) (B : VecF), B.length = W.length →
    applyWB lr (F.fin 0) W B (W.map (fun row => row.map (fun _ => F.fin 0)))
        (B.map (fun _ => F.fin 0)) =
      some (W.map (fun row => row.map (fun _ => F.nan)),
        B.map (fun _ => F.nan)) := by
  intro W
  induction W with
  | nil =>
    intro B hB
    cases B with
    | nil => rfl
    | cons _ _ => simp at hB
  | cons row rows ih =>
    intro B hB
    cases B with
    | nil => simp at hB
    | cons b bs =>
      rw [List.map_cons, List.map_cons, List.map_cons, List.map_cons, applyWB]
      simp only [applyRow_zero_nan lr row, ih bs (by simpa using hB),
        Option.bind_eq_bind, Option.some_bind]
      rw [fdiv_mul_zero_nan lr, fsub_nan]
      rfl

theorem applyLayers_zero_nan (lr : F) :
    ∀ (layers : List Layer), (∀ l ∈ layers, l.Biases.length = l.Weights.length) →
    applyLayers lr (F.fin 0) layers (zeroAccs layers) =
      some (layers.map (fun l =>
        { l with Weights := l.Weights.map (fun row => row.map (fun _ => F.nan)),
                 Biases := l.Biases.map (fun _ => F.nan) })) := by
  intro layers
  induction layers with
  | nil => intro _; rfl
  | cons l ls ih =>
    intro h
    simp only [zeroAccs, List.map_cons, applyLayers]
    have hwb := applyWB_zero_nan lr l.Weights l.Biases (h l (by simp))
    have hls : applyLayers lr (F.fin 0) ls (zeroAccs ls) =
        some (ls.map (fun l =>
          { l with Weights := l.Weights.map (fun row => row.map (fun _ => F.nan)),
                   Biases := l.Biases.map (fun _ => F.nan) })) :=
      ih (fun l2 h2 => h l2 (by simp [h2]))
    rw [hwb]
    simp only [Option.bind_eq_bind, Option.some_bind]
    have hls' : applyLayers lr (F.fin 0) ls
        (ls.map (fun l =>
          (l.Weights.map (fun row => row.map (fun _ => F.fin 0)),
           l.Biases.map (fun _ => F.fin 0)))) =
        some (ls.map (fun l =>
          { l with Weights := l.Weights.map (fun row => row.map (fun _ => F.nan)),
                   Biases := l.Biases.map (fun _ => F.nan) })) := by
      simpa [zeroAccs] using hls
    rw [hls']
    rfl

/-- C10: TrainBatch on the empty batch does not leave the network unchanged:
the zero accumulators are divided by float64(0), the division 0/0 is NaN, and
every weight and every bias of every layer is overwritten with NaN. -/
theorem trainBatch_empty_nan (fexp ftanh flog : F → F) (nn : NeuralNetwork) (lr : F)
    (hwb : ∀ l ∈ nn.Layers, l.Biases.length = l.Weights.length) :
    nn.TrainBatch fexp ftanh flog [] [] lr =
      some ⟨nn.Layers.map (fun l =>
        { l with Weights := l.Weights.map (fun row => row.map (fun _ => F.nan)),
                 Biases := l.Biases.map (fun _ => F.nan) })⟩ := by
  rw [NeuralNetwork.TrainBatch]
  simp only [sampleLoop, List.length_nil, Nat.cast_zero, Option.bind_eq_bind,
    Option.some_bind]
  rw [applyLayers_zero_nan lr nn.Layers hwb]
  rfl

/-- C10, concrete instance: the one-layer network with weight 1 and bias 0
comes back with weight NaN and bias NaN. -/
theorem trainBatch_empty_nan_witness :
    c10net.TrainBatch (fun _ => F.fin 0) (fun _ => F.fin 0) (fun _ => F.fin 0)
        [] [] (F.fin 1) =
      some ⟨c10net.Layers.map (fun l =>
        { l with Weights := l.Weights.map (fun row => row.map (fun _ => F.nan)),
                 Biases := l.Biases.map (fun _ => F.nan) })⟩ := by
  refine trainBatch_empty_nan (fun _ => F.fin 0) (fun _ => F.fin 0) (fun _ => F.fin 0)
    c10net (F.fin 1) ?_
  intro l hl
  simp only [c10net, List.mem_singleton] at hl
  rw [hl]
  rfl

end NNF
